import Mathlib

/-!
Verification of the trench-mvp progress-range engine.

The interval algebra, coverage derivation, brush geometry, nearest-feature
resolution and the undo snapshot stack are embedded as pure Lean functions
over rational numbers.  JavaScript number arithmetic is modelled by exact
rational arithmetic; `Math.hypot` distances are modelled by squared
distances together with a squared tolerance, which preserves every
comparison the code performs because squaring is monotone on nonnegative
reals.  The mutation that `mergeRanges` performs on its argument through
aliased array cells is modelled separately by `jsMergeRanges`, which
returns both the output list and the final values of the caller's cells.
-/

namespace Trench

/-- One fractional range `[start, end]`, as the two-element arrays of the code. -/
abbrev Range := ℚ × ℚ

/-- The adjacency threshold `0.001` used by `mergeRanges`. -/
def eps : ℚ := 1/1000

/-- Comparator of the sort in `mergeRanges`: `(a, b) => a[0] - b[0]`,
i.e. ascending by range start. -/
def startLE (a b : Range) : Prop := a.1 ≤ b.1

instance : DecidableRel startLE :=
  fun a b => inferInstanceAs (Decidable (a.1 ≤ b.1))

instance : IsTotal Range startLE :=
  ⟨fun a b => le_total a.1 b.1⟩

instance : IsTrans Range startLE :=
  ⟨fun _ _ _ hab hbc => le_trans hab hbc⟩

/-- `[...ranges].sort((a, b) => a[0] - b[0])`: a stable sort by range start.
JavaScript's `Array.prototype.sort` is stable, as is insertion sort. -/
def sortRanges (ranges : List Range) : List Range :=
  ranges.insertionSort startLE

/-- The merging walk of `mergeRanges`: `current` is the accumulator; a range
whose start is within `eps` of the accumulator's end is absorbed (taking the
max end), otherwise the accumulator is emitted and replaced. -/
def mergeGo : Range → List Range → List Range
  | cur, [] => [cur]
  | cur, next :: rest =>
    if next.1 ≤ cur.2 + eps then
      mergeGo (cur.1, max cur.2 next.2) rest
    else
      cur :: mergeGo next rest

/-- `mergeRanges` from the map components: sort by start, then merge
overlapping or `eps`-adjacent ranges.  This is the value-level behaviour;
the in-place cell writes of the JavaScript loop are modelled by
`jsMergeRanges` below. -/
def mergeRanges (ranges : List Range) : List Range :=
  match sortRanges ranges with
  | [] => []
  | c :: rest => mergeGo c rest

/-- The erase loop of `processPoint` (btn === 2) and of the box-deselection
path: each entry not overlapping `[r0, r1]` is kept, an overlapped entry
contributes its left part when `c0 < r0` and its right part when `c1 > r1`. -/
def subtractRange : List Range → ℚ → ℚ → List Range
  | [], _, _ => []
  | c :: rest, r0, r1 =>
    if c.2 < r0 ∨ c.1 > r1 then
      c :: subtractRange rest r0 r1
    else
      ((if c.1 < r0 then [(c.1, r0)] else []) ++
       (if c.2 > r1 then [(r1, c.2)] else [])) ++ subtractRange rest r0 r1

/-- The per-entry subtraction result exactly as the specification words it:
keep a non-overlapping entry, otherwise emit `[c0, r0]` iff `c0 < r0` and
`[r1, c1]` iff `c1 > r1`. -/
def subtractPieces (r0 r1 : ℚ) (c : Range) : List Range :=
  if c.2 < r0 ∨ c.1 > r1 then [c]
  else (if c.1 < r0 then [(c.1, r0)] else []) ++
       (if c.2 > r1 then [(r1, c.2)] else [])

/-- Modelled from the spec: `subtractRange` as the specification describes
it, a per-entry case split mapped over the list. -/
def subtractRangeSpec (ranges : List Range) (r0 r1 : ℚ) : List Range :=
  ranges.flatMap (subtractPieces r0 r1)

/-- The clamp of `pointProg` in `processPoint`:
`if (pointProg > 1) pointProg = 1; if (pointProg < 0) pointProg = 0`. -/
def clampProg (p : ℚ) : ℚ :=
  if p > 1 then 1 else if p < 0 then 0 else p

/-- The brush range computed by `processPoint`: `brushMeters = 2`,
`brushProg = brushMeters / total`, and the appended range is
`[max(0, f - brushProg/2), min(1, f + brushProg/2)]`. -/
def paintAppendRange (total f : ℚ) : Range :=
  let brushProg := 2 / total
  (max 0 (f - brushProg / 2), min 1 (f + brushProg / 2))

/-- The paint path of `processPoint` (btn === 0): append the brush range to
the current ranges and normalize with `mergeRanges`. -/
def processPointPaint (ranges : List Range) (total f : ℚ) : List Range :=
  mergeRanges (ranges ++ [paintAppendRange total (clampProg f)])

/-- The erase path of `processPoint` (btn === 2): subtract the brush range
from the current ranges (no re-merge afterwards). -/
def processPointErase (ranges : List Range) (total f : ℚ) : List Range :=
  let r := paintAppendRange total (clampProg f)
  subtractRange ranges r.1 r.2

/-- Sum of entry lengths, `ranges.reduce((sum, [a, b]) => sum + (b - a), 0)`. -/
def coverageRaw (ranges : List Range) : ℚ :=
  (ranges.map (fun c => c.2 - c.1)).sum

/-- `Math.max(0, Math.min(1, coverage))`. -/
def clamp01 (x : ℚ) : ℚ := max 0 (min 1 x)

/-- The derived feature status strings. -/
inductive Status where
  | pending
  | in_progress
  | done
deriving DecidableEq, Repr

/-- The status derivation used verbatim in both update paths:
`done` when coverage is at least `0.99`, else `in_progress` when positive,
else `pending`. -/
def statusOf (coverage : ℚ) : Status :=
  if coverage ≥ 99/100 then Status.done
  else if coverage > 0 then Status.in_progress
  else Status.pending

/-- The per-feature update of `setProgressForLine`: copy the entries, clamp
the summed coverage to `[0, 1]` and derive the status. -/
def setProgressForLine (ranges : List Range) : List Range × ℚ × Status :=
  let normalized := ranges.map (fun r => (r.1, r.2))
  let coverage := clamp01 (coverageRaw normalized)
  (normalized, coverage, statusOf coverage)

/-- The box-selection select branch: append all clip-derived ranges, then
`mergeRanges`. -/
def boxSelectRanges (current news : List Range) : List Range :=
  mergeRanges (current ++ news)

/-- The box-selection deselect branch: subtract each clip-derived range in
turn from the current ranges. -/
def boxDeselectRanges (current news : List Range) : List Range :=
  news.foldl (fun acc r => subtractRange acc r.1 r.2) current

/-- The coverage and status attached by the box-selection path; unlike
`setProgressForLine` the summed coverage is not clamped here. -/
def boxAttach (finalRanges : List Range) : ℚ × Status :=
  let coverage := coverageRaw finalRanges
  (coverage, statusOf coverage)

/-- Consecutive output ranges of the merge are separated by a gap
strictly greater than `eps`. -/
def gapGT (a b : Range) : Prop := a.2 + eps < b.1

/-- Sorted by start and separated by more than `eps`; the relation that
the merged output satisfies pairwise. -/
def canonRel (a b : Range) : Prop := startLE a b ∧ gapGT a b

instance : IsTrans Range canonRel :=
  ⟨fun _ _ _ hab hbc => ⟨le_trans hab.1 hbc.1, lt_of_lt_of_le hab.2 hbc.1⟩⟩

/-- The canonical-form invariant of a feature's `ranges`: consecutive
entries are separated by strictly more than `eps` and every entry has
strictly positive length. -/
def Canonical (l : List Range) : Prop :=
  List.Chain' gapGT l ∧ ∀ c ∈ l, c.1 < c.2

/-- Non-strict disjointness: each entry ends no later than the next starts. -/
def gapLE (a b : Range) : Prop := a.2 ≤ b.1

/-- The status thresholds as the specification words them. -/
def statusMatches (cov : ℚ) : Prop :=
  (statusOf cov = Status.done ↔ 99/100 ≤ cov) ∧
  (statusOf cov = Status.in_progress ↔ 0 < cov ∧ cov < 99/100) ∧
  (statusOf cov = Status.pending ↔ cov = 0)

/-- One feature, with the properties the engine reads and writes. -/
structure Feature where
  fid : ℕ
  lineId : ℕ
  meters : ℚ
  ranges : List Range
  status : Status
deriving DecidableEq, Repr

/-- The full feature set, snapshotted wholesale by the undo stack. -/
abbrev FeatureSet := List Feature

/-- The undo stack capacity from `ProgressStats.jsx`. -/
def MAX_UNDO : ℕ := 50

/-- `cloneData = JSON.parse(JSON.stringify(state))`: a deep copy, which in
a pure value model is the identity. -/
def cloneData (state : FeatureSet) : FeatureSet := state

/-- `pushUndoSnapshot`: ignore empty states, append a deep copy, and
`shift()` out the oldest entry when the stack exceeds `MAX_UNDO`. -/
def pushUndoSnapshot (stack : List FeatureSet) (state : FeatureSet) :
    List FeatureSet :=
  if state.isEmpty then stack
  else
    let next := stack ++ [cloneData state]
    if next.length > MAX_UNDO then next.tail else next

/-- `undoLast`: on an empty stack do nothing, otherwise `pop()` the most
recent snapshot, make it the live feature set, and return the new stack. -/
def undoLast (stack : List FeatureSet) (features : FeatureSet) :
    List FeatureSet × FeatureSet :=
  match stack.getLast? with
  | none => (stack, features)
  | some snapshot => (stack.dropLast, snapshot)

/-- A point in the flat pixel coordinate space used by the geometry
utilities. -/
structure Pt where
  x : ℚ
  y : ℚ
deriving DecidableEq, Repr

/-- The squared pixel tolerance: `PIXEL_TOLERANCE = 15`, squared.
`Math.hypot` distances are modelled as squared distances; squaring is
strictly monotone on nonnegative reals, so every comparison the code
performs (`d < minD`, `d <= PIXEL_TOLERANCE`, minima, equalities) is
preserved. -/
def TOLSQ : ℚ := 225

/-- `distPointToSegment`, squared: clamp the projection parameter to
`[0, 1]`, fall back to the plain point distance when the segment is
degenerate (`len2 === 0`). -/
def distSqPointToSegment (p a b : Pt) : ℚ :=
  let vx := b.x - a.x
  let vy := b.y - a.y
  let wx := p.x - a.x
  let wy := p.y - a.y
  let len2 := vx * vx + vy * vy
  if len2 = 0 then (p.x - a.x) ^ 2 + (p.y - a.y) ^ 2
  else
    let t := max 0 (min 1 ((wx * vx + wy * vy) / len2))
    let projx := a.x + t * vx
    let projy := a.y + t * vy
    (p.x - projx) ^ 2 + (p.y - projy) ^ 2

/-- Feature geometry, already projected to pixel space: the code's
`LineString` / `MultiLineString` branching. -/
inductive Geom where
  | lineString (coords : List Pt)
  | multiLineString (parts : List (List Pt))
deriving DecidableEq, Repr

/-- The squared distances of the consecutive segments of one part, in
traversal order (`for i in 0 .. length - 2`). -/
def segDistsLine (p : Pt) (c : List Pt) : List ℚ :=
  (c.zip c.tail).map (fun ab => distSqPointToSegment p ab.1 ab.2)

/-- All segment distances of a feature in the order the code's loops
visit them. -/
def segDists (p : Pt) : Geom → List ℚ
  | Geom.lineString c => segDistsLine p c
  | Geom.multiLineString parts => parts.flatMap (segDistsLine p)

/-- The loop body of `pixelDistancePointToFeature`: track the running
minimum (`⊤` models `Infinity`), update it when a segment is closer, and
return early as soon as a distance within tolerance is seen. -/
def distRun : List ℚ → WithTop ℚ → WithTop ℚ
  | [], minD => minD
  | d :: rest, minD =>
    let minD' := if (d : WithTop ℚ) < minD then (d : WithTop ℚ) else minD
    if d ≤ TOLSQ then (d : WithTop ℚ) else distRun rest minD'

/-- `pixelDistancePointToFeature` (squared): run the short-circuiting
minimum over all segments starting from `Infinity`. -/
def pixelDistancePointToFeature (p : Pt) (g : Geom) : WithTop ℚ :=
  distRun (segDists p g) ⊤

/-- The naive (non-short-circuiting) minimum over all segments. -/
def naiveMinDist (p : Pt) (g : Geom) : WithTop ℚ :=
  (segDists p g).foldl (fun m d => min m ((d : ℚ) : WithTop ℚ)) ⊤

/-- `pickNearestFeature`: resolve the candidate list (index hits when the
spatial index exists and returned hits, otherwise the full list or `[]`
when it is null), then keep the strictly closest candidate, starting from
`best = null`, `bestD = Infinity`. -/
def pickNearestFeature (p : Pt) (allFeatures : Option (List Geom))
    (spatialHits : Option (List Geom)) : Option Geom × WithTop ℚ :=
  let candidates :=
    match spatialHits with
    | some hits => if hits.isEmpty then allFeatures.getD [] else hits
    | none => allFeatures.getD []
  candidates.foldl
    (fun acc f =>
      let dpx := pixelDistancePointToFeature p f
      if dpx < acc.2 then (some f, dpx) else acc)
    (none, ⊤)

/-- Sort order on indexed cells (original position, current value):
ascending by range start, as the comparator `(a, b) => a[0] - b[0]`. -/
def leStartIdx (a b : ℕ × Range) : Prop := a.2.1 ≤ b.2.1

instance : DecidableRel leStartIdx :=
  fun a b => inferInstanceAs (Decidable (a.2.1 ≤ b.2.1))

/-- The merging walk of `mergeRanges` with the JavaScript aliasing made
explicit.  `[...ranges]` copies only the outer array: the sorted list
holds references to the caller's entry cells, and `current[1] =
Math.max(current[1], next[1])` writes through such a reference.  Each
indexed element carries its cell's original position; `vals` is the
current contents of the caller's cells, updated at position `i` whenever
the accumulator's cell is written.  Returns the emitted output together
with the final contents of the caller's cells. -/
def goEff : (ℕ × Range) → List (ℕ × Range) → List Range →
    List Range × List Range
  | (_, cur), [], vals => ([cur], vals)
  | (i, cur), (j, nxt) :: rest, vals =>
    if nxt.1 ≤ cur.2 + eps then
      goEff (i, (cur.1, max cur.2 nxt.2)) rest
        (vals.set i (cur.1, max cur.2 nxt.2))
    else
      let res := goEff (j, nxt) rest vals
      (cur :: res.1, res.2)

/-- The function `mergeRanges` with its effect on the caller's array made
explicit: first component is the returned list, second component is what
the caller's entry cells hold after the call. -/
def jsMergeRanges (v : List Range) : List Range × List Range :=
  match ((List.range v.length).zip v).insertionSort leStartIdx with
  | [] => ([], v)
  | c :: rest => goEff c rest v

theorem eps_pos : 0 < eps := by norm_num [eps]

theorem mergeGo_head (l : List Range) :
    ∀ cur : Range, ∃ e tl, mergeGo cur l = (cur.1, e) :: tl ∧ cur.2 ≤ e := by
  induction l with
  | nil => intro cur; exact ⟨cur.2, [], rfl, le_refl _⟩
  | cons next rest ih =>
    intro cur
    rw [mergeGo]
    by_cases hm : next.1 ≤ cur.2 + eps
    · simp only [hm, if_true]
      obtain ⟨e, tl, heq, hle⟩ := ih (cur.1, max cur.2 next.2)
      exact ⟨e, tl, heq, le_trans (le_max_left _ _) hle⟩
    · simp only [hm, if_false]
      exact ⟨cur.2, mergeGo next rest, rfl, le_refl _⟩

theorem mergeGo_chain (l : List Range) :
    ∀ cur : Range, List.Chain' startLE (cur :: l) →
      List.Chain' canonRel (mergeGo cur l) := by
  induction l with
  | nil => intro cur _; simp [mergeGo]
  | cons next rest ih =>
    intro cur h
    have h1 : startLE cur next := (List.chain'_cons.mp h).1
    have h2 : List.Chain' startLE (next :: rest) := (List.chain'_cons.mp h).2
    rw [mergeGo]
    by_cases hm : next.1 ≤ cur.2 + eps
    · simp only [hm, if_true]
      apply ih
      rcases List.chain'_cons'.mp h2 with ⟨hhd, htl⟩
      exact List.chain'_cons'.mpr
        ⟨fun y hy => le_trans h1 (hhd y hy), htl⟩
    · simp only [hm, if_false]
      obtain ⟨e, tl, heq, _⟩ := mergeGo_head rest next
      rw [heq]
      refine List.chain'_cons.mpr ⟨⟨h1, lt_of_not_le hm⟩, ?_⟩
      rw [← heq]
      exact ih next h2

theorem mergeGo_no_merge (l : List Range) :
    ∀ cur : Range, List.Chain' gapGT (cur :: l) → mergeGo cur l = cur :: l := by
  induction l with
  | nil => intro cur _; rfl
  | cons next rest ih =>
    intro cur h
    have h1 : gapGT cur next := (List.chain'_cons.mp h).1
    have h2 : List.Chain' gapGT (next :: rest) := (List.chain'_cons.mp h).2
    rw [mergeGo]
    have hm : ¬ next.1 ≤ cur.2 + eps := not_le.mpr h1
    simp only [hm, if_false]
    rw [ih next h2]

theorem mergeRanges_chain (x : List Range) :
    List.Chain' canonRel (mergeRanges x) := by
  unfold mergeRanges
  cases h : sortRanges x with
  | nil => simp
  | cons c rest =>
    apply mergeGo_chain
    rw [← h]
    exact (List.sorted_insertionSort startLE x).chain'

theorem mergeRanges_pairwise (x : List Range) :
    List.Pairwise canonRel (mergeRanges x) :=
  List.chain'_iff_pairwise.mp (mergeRanges_chain x)

theorem mergeRanges_sorted (x : List Range) :
    List.Sorted startLE (mergeRanges x) :=
  (mergeRanges_pairwise x).imp (by intro a b hab; exact hab.1)

theorem mergeRanges_of_canonical (y : List Range)
    (hs : List.Sorted startLE y) (hg : List.Chain' gapGT y) :
    mergeRanges y = y := by
  unfold mergeRanges
  rw [show sortRanges y = y from hs.insertionSort_eq]
  cases y with
  | nil => rfl
  | cons c rest => exact mergeGo_no_merge rest c hg

/-- C1: `mergeRanges` is idempotent, and its output is sorted by start,
pairwise non-overlapping, and consecutive output ranges are separated by a
gap strictly greater than `eps = 0.001`. -/
theorem mergeRanges_idempotent_canonical (x : List Range) :
    mergeRanges (mergeRanges x) = mergeRanges x ∧
    List.Chain' startLE (mergeRanges x) ∧
    List.Pairwise (fun a b : Range => a.2 < b.1) (mergeRanges x) ∧
    List.Chain' (fun a b : Range => eps < b.1 - a.2) (mergeRanges x) := by
  have hchain := mergeRanges_chain x
  have hpair := mergeRanges_pairwise x
  have hgap : List.Chain' gapGT (mergeRanges x) :=
    hchain.imp (by intro a b hab; exact hab.2)
  refine ⟨?_, hchain.imp (by intro a b hab; exact hab.1), ?_, ?_⟩
  · exact mergeRanges_of_canonical _ (mergeRanges_sorted x) hgap
  · exact hpair.imp (by
      intro a b hab
      exact lt_of_lt_of_le (lt_add_of_pos_right _ eps_pos) (le_of_lt hab.2))
  · exact hgap.imp (by
      intro a b hab
      unfold gapGT at hab
      linarith)

theorem subtractRange_eq_spec (l : List Range) (r0 r1 : ℚ) :
    subtractRange l r0 r1 = subtractRangeSpec l r0 r1 := by
  induction l with
  | nil => rfl
  | cons c rest ih =>
    rw [subtractRange, subtractRangeSpec, List.flatMap_cons]
    by_cases hov : c.2 < r0 ∨ c.1 > r1
    · simp only [hov, if_true, subtractPieces, List.cons_append, List.nil_append]
      rw [ih]; rfl
    · simp only [hov, if_false, subtractPieces]
      rw [ih]; rfl

theorem subtractPieces_within (r0 r1 : ℚ) (c : Range) :
    ∀ x ∈ subtractPieces r0 r1 c, c.1 ≤ x.1 ∧ x.2 ≤ c.2 := by
  intro x hx
  unfold subtractPieces at hx
  by_cases hov : c.2 < r0 ∨ c.1 > r1
  · simp only [hov, if_true, List.mem_singleton] at hx
    subst hx; exact ⟨le_refl _, le_refl _⟩
  · simp only [hov, if_false] at hx
    push_neg at hov
    rcases List.mem_append.mp hx with h | h
    · by_cases h1 : c.1 < r0
      · simp only [h1, if_true, List.mem_singleton] at h
        subst h; exact ⟨le_refl _, hov.1⟩
      · simp only [h1, if_false, List.not_mem_nil] at h
    · by_cases h2 : c.2 > r1
      · simp only [h2, if_true, List.mem_singleton] at h
        subst h; exact ⟨hov.2, le_refl _⟩
      · simp only [h2, if_false, List.not_mem_nil] at h

theorem subtractPieces_pos (r0 r1 : ℚ) (c : Range) (hc : c.1 < c.2) :
    ∀ x ∈ subtractPieces r0 r1 c, x.1 < x.2 := by
  intro x hx
  unfold subtractPieces at hx
  by_cases hov : c.2 < r0 ∨ c.1 > r1
  · simp only [hov, if_true, List.mem_singleton] at hx
    subst hx; exact hc
  · simp only [hov, if_false] at hx
    rcases List.mem_append.mp hx with h | h
    · by_cases h1 : c.1 < r0
      · simp only [h1, if_true, List.mem_singleton] at h
        subst h; exact h1
      · simp only [h1, if_false, List.not_mem_nil] at h
    · by_cases h2 : c.2 > r1
      · simp only [h2, if_true, List.mem_singleton] at h
        subst h; exact h2
      · simp only [h2, if_false, List.not_mem_nil] at h

theorem subtractRange_within (l : List Range) (r0 r1 : ℚ) :
    ∀ x ∈ subtractRange l r0 r1, ∃ c ∈ l, c.1 ≤ x.1 ∧ x.2 ≤ c.2 := by
  intro x hx
  rw [subtractRange_eq_spec] at hx
  obtain ⟨c, hc, hxc⟩ := List.mem_flatMap.mp hx
  exact ⟨c, hc, subtractPieces_within r0 r1 c x hxc⟩

theorem subtractRange_pos (l : List Range) (r0 r1 : ℚ)
    (hval : ∀ c ∈ l, c.1 < c.2) :
    ∀ x ∈ subtractRange l r0 r1, x.1 < x.2 := by
  intro x hx
  rw [subtractRange_eq_spec] at hx
  obtain ⟨c, hc, hxc⟩ := List.mem_flatMap.mp hx
  exact subtractPieces_pos r0 r1 c (hval c hc) x hxc

/-- C4: the erase/subtract loop computes exactly the specification's
per-entry subtraction (keep on no overlap, else left piece iff `c0 < r0`
and right piece iff `c1 > r1`), subtracting from an empty list yields an
empty list, and on entries of positive length no zero-length entry
appears in the output. -/
theorem subtractRange_matches_spec (l : List Range) (r0 r1 : ℚ)
    (hval : ∀ c ∈ l, c.1 < c.2) :
    subtractRange [] r0 r1 = [] ∧
    subtractRange l r0 r1 = subtractRangeSpec l r0 r1 ∧
    ∀ x ∈ subtractRange l r0 r1, x.1 < x.2 :=
  ⟨rfl, subtractRange_eq_spec l r0 r1, subtractRange_pos l r0 r1 hval⟩

theorem mergeGo_pos (l : List Range) :
    ∀ cur : Range, cur.1 < cur.2 → (∀ c ∈ l, c.1 < c.2) →
      ∀ x ∈ mergeGo cur l, x.1 < x.2 := by
  induction l with
  | nil =>
    intro cur hcur _ x hx
    rw [mergeGo, List.mem_singleton] at hx
    subst hx; exact hcur
  | cons next rest ih =>
    intro cur hcur hl x hx
    rw [mergeGo] at hx
    by_cases hm : next.1 ≤ cur.2 + eps
    · simp only [hm, if_true] at hx
      refine ih (cur.1, max cur.2 next.2) ?_
        (fun c hc => hl c (List.mem_cons_of_mem next hc)) x hx
      exact lt_of_lt_of_le hcur (le_max_left _ _)
    · simp only [hm, if_false] at hx
      rcases List.mem_cons.mp hx with h | h
      · subst h; exact hcur
      · exact ih next (hl next (List.mem_cons_self next rest))
          (fun c hc => hl c (List.mem_cons_of_mem next hc)) x h

theorem mergeRanges_pos (l : List Range) (hval : ∀ c ∈ l, c.1 < c.2) :
    ∀ x ∈ mergeRanges l, x.1 < x.2 := by
  have hs : ∀ c ∈ sortRanges l, c.1 < c.2 := fun c hc =>
    hval c ((List.mem_insertionSort startLE).mp hc)
  intro x hx
  unfold mergeRanges at hx
  revert hs hx
  cases sortRanges l with
  | nil => intro _ hx; simp at hx
  | cons c rest =>
    intro hs hx
    exact mergeGo_pos rest c (hs c (List.mem_cons_self c rest))
      (fun d hd => hs d (List.mem_cons_of_mem c hd)) x hx

theorem mergeRanges_canonical (l : List Range)
    (hval : ∀ c ∈ l, c.1 < c.2) : Canonical (mergeRanges l) :=
  ⟨(mergeRanges_chain l).imp (by intro a b hab; exact hab.2),
   mergeRanges_pos l hval⟩

theorem brushHalf (total : ℚ) : 2 / total / 2 = 1 / total := by
  rw [div_div]
  calc 2 / (total * 2) = 1 * 2 / (total * 2) := by norm_num
    _ = 1 / total := mul_div_mul_right 1 total two_ne_zero

theorem paintAppendRange_pos (total f : ℚ)
    (htot : 0 < total) (hf0 : 0 ≤ f) (hf1 : f ≤ 1) :
    (paintAppendRange total f).1 < (paintAppendRange total f).2 := by
  unfold paintAppendRange
  simp only [brushHalf]
  have hw : 0 < 1 / total := by positivity
  rw [max_lt_iff, lt_min_iff, lt_min_iff]
  constructor
  · constructor <;> linarith
  · constructor <;> linarith

theorem clampProg_eq (f : ℚ) (hf0 : 0 ≤ f) (hf1 : f ≤ 1) :
    clampProg f = f := by
  unfold clampProg
  rw [if_neg (not_lt.mpr hf1), if_neg (not_lt.mpr hf0)]

theorem chain_gap_all (t : List Range) :
    ∀ a : Range, (∀ y ∈ t.head?, gapGT a y) → List.Chain' gapGT t →
      (∀ c ∈ t, c.1 < c.2) → ∀ b ∈ t, gapGT a b := by
  induction t with
  | nil => intro a _ _ _ b hb; simp at hb
  | cons b t' ih =>
    intro a hhd htl hpos x hx
    have hab : gapGT a b := hhd b (by simp)
    rcases List.mem_cons.mp hx with h | h
    · subst h; exact hab
    · rcases List.chain'_cons'.mp htl with ⟨hhd', htl'⟩
      refine ih a ?_ htl'
        (fun c hc => hpos c (List.mem_cons_of_mem b hc)) x h
      intro y hy
      have hby : gapGT b y := hhd' y hy
      have hbpos : b.1 < b.2 := hpos b (List.mem_cons_self b t')
      unfold gapGT at *
      have : 0 < eps := eps_pos
      linarith

theorem chain_gap_pairwise (l : List Range) (hc : List.Chain' gapGT l)
    (hpos : ∀ c ∈ l, c.1 < c.2) : List.Pairwise gapGT l := by
  induction l with
  | nil => simp
  | cons a t ih =>
    rcases List.chain'_cons'.mp hc with ⟨hhd, htl⟩
    refine List.pairwise_cons.mpr ⟨?_, ih htl
      (fun c hcm => hpos c (List.mem_cons_of_mem a hcm))⟩
    exact chain_gap_all t a hhd htl
      (fun c hcm => hpos c (List.mem_cons_of_mem a hcm))

theorem subtractPieces_pairwise_gap (r0 r1 : ℚ) (hw : eps < r1 - r0)
    (c : Range) : List.Pairwise gapGT (subtractPieces r0 r1 c) := by
  unfold subtractPieces
  by_cases hov : c.2 < r0 ∨ c.1 > r1
  · simp [hov]
  · simp only [hov, if_false]
    by_cases h1 : c.1 < r0 <;> by_cases h2 : c.2 > r1 <;>
      simp [h1, h2, gapGT]
    linarith

theorem subtractRange_pairwise_gap (l : List Range) (r0 r1 : ℚ)
    (hw : eps < r1 - r0) (hp : List.Pairwise gapGT l) :
    List.Pairwise gapGT (subtractRange l r0 r1) := by
  rw [subtractRange_eq_spec]
  apply List.pairwise_flatMap.mpr
  refine ⟨fun a _ => subtractPieces_pairwise_gap r0 r1 hw a, ?_⟩
  refine hp.imp ?_
  intro a b hab x hx y hy
  have hxa := subtractPieces_within r0 r1 a x hx
  have hyb := subtractPieces_within r0 r1 b y hy
  unfold gapGT at *
  linarith [hxa.2, hyb.1]

theorem erase_preserves_canonical (l : List Range) (r0 r1 : ℚ)
    (hcan : Canonical l) (hw : eps < r1 - r0) :
    Canonical (subtractRange l r0 r1) :=
  ⟨(subtractRange_pairwise_gap l r0 r1 hw
      (chain_gap_pairwise l hcan.1 hcan.2)).chain',
   subtractRange_pos l r0 r1 hcan.2⟩

/-- Counterexample for C2 as stated: on a feature with `meters = 10000`
(greater than 2000) a brush erase at fraction `1/2` splits `[[0, 1]]` into
two pieces separated by `2/10000 < eps`, so the resulting ranges list is
not canonical (the two entries could be merged under the `eps` threshold). -/
theorem erase_canonical_cex :
    Canonical [((0:ℚ), 1)] ∧
    processPointErase [((0:ℚ), 1)] 10000 (1/2) =
      [(0, 4999/10000), (5001/10000, 1)] ∧
    ¬ Canonical (processPointErase [((0:ℚ), 1)] 10000 (1/2)) := by
  have heval : processPointErase [((0:ℚ), 1)] 10000 (1/2) =
      [(0, 4999/10000), (5001/10000, 1)] := by
    norm_num [processPointErase, paintAppendRange, clampProg, subtractRange]
  refine ⟨⟨by simp, by norm_num⟩, heval, ?_⟩
  rw [heval]
  intro hcan
  have := List.chain'_cons.mp hcan.1
  unfold gapGT eps at this
  have h2 := this.1
  norm_num at h2

/-- Witness for C4 at the concrete list `[[0, 1/2], [3/5, 1]]` and the
subtracted range `[2/5, 7/10]`. -/
theorem subtractRange_matches_spec_witness :
    (∀ c ∈ [((0:ℚ), (1:ℚ)/2), (3/5, 1)], c.1 < c.2) ∧
    (subtractRange [] (2/5) (7/10) = [] ∧
     subtractRange [((0:ℚ), (1:ℚ)/2), (3/5, 1)] (2/5) (7/10) =
       subtractRangeSpec [((0:ℚ), (1:ℚ)/2), (3/5, 1)] (2/5) (7/10) ∧
     ∀ x ∈ subtractRange [((0:ℚ), (1:ℚ)/2), (3/5, 1)] (2/5) (7/10),
       x.1 < x.2) :=
  ⟨by norm_num, subtractRange_matches_spec _ _ _ (by norm_num)⟩

/-- C6 (amended): the paint gesture appends the brush range
`[max(0, f - w), min(1, f + w)]` with half-width `w = 1 / meters` (half of
the 2-meter brush length expressed as a fraction of `meters`), not
`w = 2 / meters` as originally claimed; see `paintAppendRange_cex`. -/
theorem paintAppendRange_halfwidth (ranges : List Range) (total f : ℚ)
    (htot : 0 < total) (hf0 : 0 ≤ f) (hf1 : f ≤ 1) :
    paintAppendRange total (clampProg f) =
      (max 0 (f - 1/total), min 1 (f + 1/total)) ∧
    processPointPaint ranges total f =
      mergeRanges (ranges ++ [(max 0 (f - 1/total), min 1 (f + 1/total))]) := by
  have h1 : paintAppendRange total (clampProg f) =
      (max 0 (f - 1/total), min 1 (f + 1/total)) := by
    rw [clampProg_eq f hf0 hf1]
    unfold paintAppendRange
    simp only [brushHalf]
  refine ⟨h1, ?_⟩
  unfold processPointPaint
  rw [h1]

/-- Witness for C6 (amended) at `meters = 100`, `f = 1/2`, empty ranges. -/
theorem paintAppendRange_halfwidth_witness :
    ((0:ℚ) < 100 ∧ (0:ℚ) ≤ 1/2 ∧ (1:ℚ)/2 ≤ 1) ∧
    (paintAppendRange 100 (clampProg (1/2)) =
      (max 0 ((1:ℚ)/2 - 1/100), min 1 ((1:ℚ)/2 + 1/100)) ∧
     processPointPaint [] 100 (1/2) =
      mergeRanges ([] ++ [(max 0 ((1:ℚ)/2 - 1/100), min 1 ((1:ℚ)/2 + 1/100))])) :=
  ⟨⟨by norm_num, by norm_num, by norm_num⟩,
   paintAppendRange_halfwidth [] 100 (1/2) (by norm_num) (by norm_num)
     (by norm_num)⟩

/-- Counterexample for C6 as stated: with `meters = 100` and `f = 1/2` the
appended brush range is `(49/100, 51/100)`, not the claimed
`[max(0, f - 2/meters), min(1, f + 2/meters)] = (48/100, 52/100)`. -/
theorem paintAppendRange_cex :
    paintAppendRange 100 (clampProg (1/2)) ≠
      (max 0 ((1:ℚ)/2 - 2/100), min 1 ((1:ℚ)/2 + 2/100)) := by
  norm_num [paintAppendRange, clampProg, max_def, min_def, Prod.ext_iff]

theorem coverageRaw_nil : coverageRaw [] = 0 := rfl

theorem coverageRaw_cons (c : Range) (t : List Range) :
    coverageRaw (c :: t) = (c.2 - c.1) + coverageRaw t := by
  simp [coverageRaw]

theorem coverageRaw_append (s t : List Range) :
    coverageRaw (s ++ t) = coverageRaw s + coverageRaw t := by
  simp [coverageRaw]

theorem coverageRaw_sortRanges (l : List Range) :
    coverageRaw (sortRanges l) = coverageRaw l := by
  unfold coverageRaw
  exact ((List.perm_insertionSort startLE l).map (fun c => c.2 - c.1)).sum_eq

theorem mergeGo_cov (l : List Range) :
    ∀ cur : Range, (∀ c ∈ l, c.1 ≤ c.2) →
      coverageRaw (mergeGo cur l) ≤
        (cur.2 - cur.1) + coverageRaw l + (l.length : ℚ) * eps := by
  induction l with
  | nil =>
    intro cur _
    simp [mergeGo, coverageRaw]
  | cons next rest ih =>
    intro cur hval
    have hrest : ∀ c ∈ rest, c.1 ≤ c.2 :=
      fun c hc => hval c (List.mem_cons_of_mem next hc)
    have hnext : next.1 ≤ next.2 := hval next (List.mem_cons_self next rest)
    rw [mergeGo]
    by_cases hm : next.1 ≤ cur.2 + eps
    · simp only [hm, if_true]
      have h1 := ih (cur.1, max cur.2 next.2) hrest
      have h2 : max cur.2 next.2 - cur.1 ≤
          (cur.2 - cur.1) + (next.2 - next.1) + eps := by
        rcases le_total next.2 cur.2 with h | h
        · rw [max_eq_left h]
          have := eps_pos
          linarith
        · rw [max_eq_right h]
          linarith
      rw [coverageRaw_cons, List.length_cons]
      push_cast
      push_cast at h1
      linarith
    · simp only [hm, if_false]
      have h1 := ih next hrest
      rw [coverageRaw_cons, coverageRaw_cons, List.length_cons]
      push_cast
      push_cast at h1
      have := eps_pos
      linarith

theorem mergeRanges_cov (l : List Range) (hval : ∀ c ∈ l, c.1 ≤ c.2) :
    coverageRaw (mergeRanges l) ≤
      coverageRaw l + ((l.length - 1 : ℕ) : ℚ) * eps := by
  have hs : ∀ c ∈ sortRanges l, c.1 ≤ c.2 := fun c hc =>
    hval c ((List.mem_insertionSort startLE).mp hc)
  have hlen : (sortRanges l).length = l.length :=
    List.length_insertionSort startLE l
  have hcov := coverageRaw_sortRanges l
  unfold mergeRanges
  revert hs hlen hcov
  cases sortRanges l with
  | nil =>
    intro _ _ hcov
    rw [coverageRaw_nil] at hcov
    show coverageRaw [] ≤ coverageRaw l + ((l.length - 1 : ℕ) : ℚ) * eps
    rw [coverageRaw_nil, ← hcov]
    have h := eps_pos
    have h2 : (0:ℚ) ≤ ((l.length - 1 : ℕ) : ℚ) * eps :=
      mul_nonneg (Nat.cast_nonneg _) (le_of_lt h)
    linarith
  | cons c rest =>
    intro hs hlen hcov
    show coverageRaw (mergeGo c rest) ≤
      coverageRaw l + ((l.length - 1 : ℕ) : ℚ) * eps
    have h1 := mergeGo_cov rest c
      (fun d hd => hs d (List.mem_cons_of_mem c hd))
    have h2 : c.2 - c.1 + coverageRaw rest = coverageRaw l := by
      rw [← hcov, coverageRaw_cons]
    have h3 : ((l.length - 1 : ℕ) : ℚ) = (rest.length : ℚ) := by
      rw [← hlen]
      simp
    rw [h3]
    linarith

theorem mergeGo_covers (l : List Range) :
    ∀ cur : Range, List.Chain' startLE (cur :: l) →
      ∀ x ∈ cur :: l, ∃ c ∈ mergeGo cur l, c.1 ≤ x.1 ∧ x.2 ≤ c.2 := by
  induction l with
  | nil =>
    intro cur _ x hx
    rw [List.mem_singleton] at hx
    rw [hx]
    refine ⟨cur, ?_, le_refl _, le_refl _⟩
    rw [mergeGo]
    exact List.mem_singleton.mpr rfl
  | cons next rest ih =>
    intro cur h x hx
    have h1 : startLE cur next := (List.chain'_cons.mp h).1
    have h2 : List.Chain' startLE (next :: rest) := (List.chain'_cons.mp h).2
    rw [mergeGo]
    by_cases hm : next.1 ≤ cur.2 + eps
    · simp only [hm, if_true]
      have hchain : List.Chain' startLE ((cur.1, max cur.2 next.2) :: rest) := by
        rcases List.chain'_cons'.mp h2 with ⟨hhd, htl⟩
        exact List.chain'_cons'.mpr
          ⟨fun y hy => le_trans h1 (hhd y hy), htl⟩
      rcases List.mem_cons.mp hx with hcur | hx'
      · obtain ⟨c, hc, hc1, hc2⟩ := ih (cur.1, max cur.2 next.2) hchain
          (cur.1, max cur.2 next.2) (List.mem_cons_self _ _)
        rw [hcur]
        exact ⟨c, hc, hc1, le_trans (le_max_left _ _) hc2⟩
      rcases List.mem_cons.mp hx' with hnext | hrest
      · obtain ⟨c, hc, hc1, hc2⟩ := ih (cur.1, max cur.2 next.2) hchain
          (cur.1, max cur.2 next.2) (List.mem_cons_self _ _)
        rw [hnext]
        exact ⟨c, hc, le_trans hc1 h1, le_trans (le_max_right _ _) hc2⟩
      · exact ih (cur.1, max cur.2 next.2) hchain x
          (List.mem_cons_of_mem _ hrest)
    · simp only [hm, if_false]
      rcases List.mem_cons.mp hx with hcur | hx'
      · rw [hcur]
        exact ⟨cur, List.mem_cons_self _ _, le_refl _, le_refl _⟩
      · obtain ⟨c, hc, hc1, hc2⟩ := ih next h2 x hx'
        exact ⟨c, List.mem_cons_of_mem _ hc, hc1, hc2⟩

theorem mergeRanges_covers (l : List Range) :
    ∀ x ∈ l, ∃ c ∈ mergeRanges l, c.1 ≤ x.1 ∧ x.2 ≤ c.2 := by
  intro x hx
  have hx' : x ∈ sortRanges l := (List.mem_insertionSort startLE).mpr hx
  have hsort : List.Sorted startLE (sortRanges l) :=
    List.sorted_insertionSort startLE l
  unfold mergeRanges
  revert hx' hsort
  cases sortRanges l with
  | nil => intro h _; simp at h
  | cons c rest =>
    intro hx' hsort
    exact mergeGo_covers rest c hsort.chain' x hx'

theorem subtractPieces_cov_le (r0 r1 : ℚ) (c : Range)
    (hc : c.1 ≤ c.2) (hr : r0 ≤ r1) :
    coverageRaw (subtractPieces r0 r1 c) ≤ c.2 - c.1 := by
  unfold subtractPieces
  by_cases hov : c.2 < r0 ∨ c.1 > r1
  · simp [hov, coverageRaw]
  · push_neg at hov
    simp only [if_neg (by push_neg; exact hov :
      ¬ (c.2 < r0 ∨ c.1 > r1))]
    by_cases h1 : c.1 < r0 <;> by_cases h2 : c.2 > r1 <;>
      simp [h1, h2, coverageRaw] <;> linarith

theorem subtractPieces_cov_exact (r0 r1 : ℚ) (c : Range)
    (h0 : c.1 ≤ r0) (h1 : r1 ≤ c.2) (hr : r0 ≤ r1) :
    coverageRaw (subtractPieces r0 r1 c) = (c.2 - c.1) - (r1 - r0) := by
  unfold subtractPieces
  have hov : ¬ (c.2 < r0 ∨ c.1 > r1) := by
    push_neg
    constructor <;> linarith
  simp only [if_neg hov]
  by_cases hc1 : c.1 < r0 <;> by_cases hc2 : c.2 > r1 <;>
    simp [hc1, hc2, coverageRaw] <;> linarith

theorem subtractRange_cov_le (l : List Range) (r0 r1 : ℚ)
    (hval : ∀ c ∈ l, c.1 ≤ c.2) (hr : r0 ≤ r1) :
    coverageRaw (subtractRange l r0 r1) ≤ coverageRaw l := by
  rw [subtractRange_eq_spec]
  induction l with
  | nil => simp [subtractRangeSpec, coverageRaw]
  | cons c rest ih =>
    rw [subtractRangeSpec, List.flatMap_cons, coverageRaw_append,
      coverageRaw_cons]
    have h1 := subtractPieces_cov_le r0 r1 c
      (hval c (List.mem_cons_self c rest)) hr
    have h2 := ih (fun d hd => hval d (List.mem_cons_of_mem c hd))
    rw [subtractRangeSpec] at h2
    linarith

/-- C3 (amended): painting `[a, b]` and erasing the same range can exceed
the original coverage by the gaps that `eps`-adjacency merging bridged,
but never by more than `|R| * eps`; the unamended inequality is refuted by
`paint_then_erase_cov_cex`. -/
theorem paint_then_erase_cov (R : List Range) (a b : ℚ)
    (hval : ∀ c ∈ R, 0 ≤ c.1 ∧ c.1 < c.2 ∧ c.2 ≤ 1)
    (hsorted : List.Chain' startLE R)
    (hdisj : List.Chain' (fun x y : Range => x.2 ≤ y.1) R)
    (ha : 0 ≤ a) (hab : a < b) (hb : b ≤ 1) :
    coverageRaw (subtractRange (mergeRanges (R ++ [(a, b)])) a b) ≤
      coverageRaw R + (R.length : ℚ) * eps := by
  have hvall : ∀ c ∈ R ++ [(a, b)], c.1 ≤ c.2 := by
    intro c hc
    rcases List.mem_append.mp hc with h | h
    · exact le_of_lt (hval c h).2.1
    · rw [List.mem_singleton] at h
      subst h
      exact le_of_lt hab
  have hvalls : ∀ c ∈ R ++ [(a, b)], c.1 < c.2 := by
    intro c hc
    rcases List.mem_append.mp hc with h | h
    · exact (hval c h).2.1
    · rw [List.mem_singleton] at h
      subst h
      exact hab
  have hM : ∀ c ∈ mergeRanges (R ++ [(a, b)]), c.1 ≤ c.2 :=
    fun c hc => le_of_lt (mergeRanges_pos _ hvalls c hc)
  have hcovM := mergeRanges_cov (R ++ [(a, b)]) hvall
  have hmem : ∃ cs ∈ mergeRanges (R ++ [(a, b)]), cs.1 ≤ a ∧ b ≤ cs.2 := by
    obtain ⟨c, hc, h1, h2⟩ := mergeRanges_covers (R ++ [(a, b)]) (a, b)
      (List.mem_append.mpr (Or.inr (List.mem_singleton.mpr rfl)))
    exact ⟨c, hc, h1, h2⟩
  obtain ⟨cs, hcs, hcs1, hcs2⟩ := hmem
  obtain ⟨s, t, hst⟩ := List.append_of_mem hcs
  have hsub : coverageRaw (subtractRange (mergeRanges (R ++ [(a, b)])) a b) ≤
      coverageRaw (mergeRanges (R ++ [(a, b)])) - (b - a) := by
    rw [hst, subtractRange_eq_spec]
    unfold subtractRangeSpec
    rw [List.flatMap_append, List.flatMap_cons,
      coverageRaw_append, coverageRaw_append, coverageRaw_append,
      coverageRaw_cons]
    have hvs : ∀ c ∈ s, c.1 ≤ c.2 := by
      intro c hc
      exact hM c (by rw [hst]; exact List.mem_append.mpr (Or.inl hc))
    have hvt : ∀ c ∈ t, c.1 ≤ c.2 := by
      intro c hc
      refine hM c ?_
      rw [hst]
      exact List.mem_append.mpr (Or.inr (List.mem_cons_of_mem cs hc))
    have h1 : coverageRaw (s.flatMap (subtractPieces a b)) ≤ coverageRaw s := by
      have h := subtractRange_cov_le s a b hvs (le_of_lt hab)
      rw [subtractRange_eq_spec] at h
      unfold subtractRangeSpec at h
      exact h
    have h2 : coverageRaw (t.flatMap (subtractPieces a b)) ≤ coverageRaw t := by
      have h := subtractRange_cov_le t a b hvt (le_of_lt hab)
      rw [subtractRange_eq_spec] at h
      unfold subtractRangeSpec at h
      exact h
    have h3 := subtractPieces_cov_exact a b cs hcs1 hcs2 (le_of_lt hab)
    linarith
  have hlen : ((R ++ [(a, b)]).length - 1 : ℕ) = R.length := by simp
  rw [coverageRaw_append, coverageRaw_cons, coverageRaw_nil] at hcovM
  rw [hlen] at hcovM
  linarith

/-- Witness for C3 (amended) at `R = [[0, 1/2]]`, `[a, b] = [1/4, 3/4]`. -/
theorem paint_then_erase_cov_witness :
    ((∀ c ∈ [((0:ℚ), (1:ℚ)/2)], 0 ≤ c.1 ∧ c.1 < c.2 ∧ c.2 ≤ 1) ∧
     (0:ℚ) ≤ 1/4 ∧ (1:ℚ)/4 < 3/4 ∧ (3:ℚ)/4 ≤ 1) ∧
    coverageRaw (subtractRange
        (mergeRanges ([((0:ℚ), (1:ℚ)/2)] ++ [(1/4, 3/4)])) (1/4) (3/4)) ≤
      coverageRaw [((0:ℚ), (1:ℚ)/2)] +
        (([((0:ℚ), (1:ℚ)/2)].length : ℚ)) * eps :=
  ⟨⟨by norm_num, by norm_num, by norm_num, by norm_num⟩,
   paint_then_erase_cov [((0:ℚ), (1:ℚ)/2)] (1/4) (3/4) (by norm_num)
     (List.chain'_singleton _) (List.chain'_singleton _)
     (by norm_num) (by norm_num) (by norm_num)⟩

/-- Counterexample for C3 as stated: `R = [[0, 2/5], [2/5 + 1/2000, 4/5]]`
is sorted, disjoint and within `[0, 1]`, yet painting `[9/10, 19/20]` and
erasing it again yields coverage `4/5`, strictly more than
`coverage(R) = 4/5 - 1/2000`, because the merge bridged the `1/2000 ≤ eps`
gap between the two entries of `R`. -/
theorem paint_then_erase_cov_cex :
    (∀ c ∈ [((0:ℚ), 2/5), (2/5 + 1/2000, 4/5)],
      0 ≤ c.1 ∧ c.1 < c.2 ∧ c.2 ≤ 1) ∧
    List.Chain' startLE [((0:ℚ), 2/5), (2/5 + 1/2000, 4/5)] ∧
    List.Chain' (fun x y : Range => x.2 ≤ y.1)
      [((0:ℚ), 2/5), (2/5 + 1/2000, 4/5)] ∧
    (0:ℚ) ≤ 9/10 ∧ (9:ℚ)/10 < 19/20 ∧ (19:ℚ)/20 ≤ 1 ∧
    coverageRaw (subtractRange
        (mergeRanges ([((0:ℚ), 2/5), (2/5 + 1/2000, 4/5)] ++
          [(9/10, 19/20)])) (9/10) (19/20)) >
      coverageRaw [((0:ℚ), 2/5), (2/5 + 1/2000, 4/5)] := by
  refine ⟨by norm_num, ?_, ?_, by norm_num, by norm_num, by norm_num, ?_⟩
  · simp only [List.chain'_cons, List.chain'_singleton, and_true, startLE]
    norm_num
  · simp only [List.chain'_cons, List.chain'_singleton, and_true]
    norm_num
  · norm_num [mergeRanges, sortRanges, List.insertionSort,
      List.orderedInsert, startLE, mergeGo, eps, subtractRange, coverageRaw]

theorem statusOf_char (cov : ℚ) (h0 : 0 ≤ cov) : statusMatches cov := by
  unfold statusMatches statusOf
  by_cases h1 : cov ≥ 99/100
  · rw [if_pos h1]
    exact ⟨⟨fun _ => h1, fun _ => rfl⟩,
      ⟨fun h => Status.noConfusion h, fun h => absurd h.2 (not_lt.mpr h1)⟩,
      ⟨fun h => Status.noConfusion h,
       fun h => absurd h1 (by rw [h]; norm_num)⟩⟩
  · rw [if_neg h1]
    by_cases h2 : cov > 0
    · rw [if_pos h2]
      exact ⟨⟨fun h => Status.noConfusion h, fun h => absurd h h1⟩,
        ⟨fun _ => ⟨h2, lt_of_not_le h1⟩, fun _ => rfl⟩,
        ⟨fun h => Status.noConfusion h,
         fun h => absurd h2 (by rw [h]; norm_num)⟩⟩
    · rw [if_neg h2]
      have hz : cov = 0 := le_antisymm (not_lt.mp h2) h0
      exact ⟨⟨fun h => Status.noConfusion h, fun h => absurd h h1⟩,
        ⟨fun h => Status.noConfusion h, fun h => absurd h.1 h2⟩,
        ⟨fun _ => hz, fun _ => rfl⟩⟩

theorem clamp01_nonneg (x : ℚ) : 0 ≤ clamp01 x := le_max_left 0 _

theorem clamp01_le_one (x : ℚ) : clamp01 x ≤ 1 :=
  max_le (by norm_num) (min_le_left 1 x)

theorem clamp01_eq (x : ℚ) (h0 : 0 ≤ x) (h1 : x ≤ 1) : clamp01 x = x := by
  unfold clamp01
  rw [min_eq_right h1, max_eq_right h0]

theorem coverageRaw_nonneg (l : List Range)
    (hv : ∀ c ∈ l, c.1 ≤ c.2) : 0 ≤ coverageRaw l := by
  induction l with
  | nil => rw [coverageRaw_nil]
  | cons c t ih =>
    rw [coverageRaw_cons]
    have h1 := hv c (List.mem_cons_self c t)
    have h2 := ih (fun d hd => hv d (List.mem_cons_of_mem c hd))
    linarith

theorem cov_chain_bound (t : List Range) :
    ∀ c : Range, List.Chain' gapLE (c :: t) →
      (∀ d ∈ c :: t, d.1 ≤ d.2 ∧ d.2 ≤ 1) →
      coverageRaw (c :: t) ≤ 1 - c.1 := by
  induction t with
  | nil =>
    intro c _ hv
    rw [coverageRaw_cons, coverageRaw_nil]
    have := (hv c (List.mem_cons_self c [])).2
    linarith
  | cons b t' ih =>
    intro c hc hv
    have h1 : gapLE c b := (List.chain'_cons.mp hc).1
    have h2 := ih b (List.chain'_cons.mp hc).2
      (fun d hd => hv d (List.mem_cons_of_mem c hd))
    rw [coverageRaw_cons]
    unfold gapLE at h1
    have h3 := (hv b (List.mem_cons_of_mem c (List.mem_cons_self b t'))).1
    linarith

theorem coverage_le_one (l : List Range) (hchain : List.Chain' gapLE l)
    (hv : ∀ d ∈ l, 0 ≤ d.1 ∧ d.1 ≤ d.2 ∧ d.2 ≤ 1) :
    coverageRaw l ≤ 1 := by
  cases l with
  | nil => rw [coverageRaw_nil]; norm_num
  | cons c t =>
    have h1 := cov_chain_bound t c hchain
      (fun d hd => ⟨(hv d hd).2.1, (hv d hd).2.2⟩)
    have h2 := (hv c (List.mem_cons_self c t)).1
    linarith

theorem mergeGo_len_nonneg (l : List Range) :
    ∀ cur : Range, cur.1 ≤ cur.2 → (∀ c ∈ l, c.1 ≤ c.2) →
      ∀ x ∈ mergeGo cur l, x.1 ≤ x.2 := by
  induction l with
  | nil =>
    intro cur hcur _ x hx
    rw [mergeGo, List.mem_singleton] at hx
    rw [hx]; exact hcur
  | cons next rest ih =>
    intro cur hcur hl x hx
    rw [mergeGo] at hx
    by_cases hm : next.1 ≤ cur.2 + eps
    · simp only [hm, if_true] at hx
      refine ih (cur.1, max cur.2 next.2)
        (le_trans hcur (le_max_left _ _))
        (fun c hc => hl c (List.mem_cons_of_mem next hc)) x hx
    · simp only [hm, if_false] at hx
      rcases List.mem_cons.mp hx with h | h
      · rw [h]; exact hcur
      · exact ih next (hl next (List.mem_cons_self next rest))
          (fun c hc => hl c (List.mem_cons_of_mem next hc)) x h

theorem mergeGo_within01 (l : List Range) :
    ∀ cur : Range, 0 ≤ cur.1 → cur.2 ≤ 1 →
      (∀ c ∈ l, 0 ≤ c.1 ∧ c.2 ≤ 1) →
      ∀ x ∈ mergeGo cur l, 0 ≤ x.1 ∧ x.2 ≤ 1 := by
  induction l with
  | nil =>
    intro cur h0 h1 _ x hx
    rw [mergeGo, List.mem_singleton] at hx
    rw [hx]; exact ⟨h0, h1⟩
  | cons next rest ih =>
    intro cur h0 h1 hl x hx
    rw [mergeGo] at hx
    by_cases hm : next.1 ≤ cur.2 + eps
    · simp only [hm, if_true] at hx
      refine ih (cur.1, max cur.2 next.2) h0 ?_
        (fun c hc => hl c (List.mem_cons_of_mem next hc)) x hx
      exact max_le h1 (hl next (List.mem_cons_self next rest)).2
    · simp only [hm, if_false] at hx
      rcases List.mem_cons.mp hx with h | h
      · rw [h]; exact ⟨h0, h1⟩
      · exact ih next (hl next (List.mem_cons_self next rest)).1
          (hl next (List.mem_cons_self next rest)).2
          (fun c hc => hl c (List.mem_cons_of_mem next hc)) x h

theorem mergeRanges_valid01 (l : List Range)
    (hv : ∀ c ∈ l, 0 ≤ c.1 ∧ c.1 ≤ c.2 ∧ c.2 ≤ 1) :
    ∀ x ∈ mergeRanges l, 0 ≤ x.1 ∧ x.1 ≤ x.2 ∧ x.2 ≤ 1 := by
  have hs : ∀ c ∈ sortRanges l, 0 ≤ c.1 ∧ c.1 ≤ c.2 ∧ c.2 ≤ 1 :=
    fun c hc => hv c ((List.mem_insertionSort startLE).mp hc)
  intro x hx
  unfold mergeRanges at hx
  revert hs hx
  cases sortRanges l with
  | nil => intro _ hx; simp at hx
  | cons c rest =>
    intro hs hx
    have hc := hs c (List.mem_cons_self c rest)
    have hr : ∀ d ∈ rest, 0 ≤ d.1 ∧ d.1 ≤ d.2 ∧ d.2 ≤ 1 :=
      fun d hd => hs d (List.mem_cons_of_mem c hd)
    have h1 := mergeGo_within01 rest c hc.1 hc.2.2
      (fun d hd => ⟨(hr d hd).1, (hr d hd).2.2⟩) x hx
    have h2 := mergeGo_len_nonneg rest c hc.2.1
      (fun d hd => (hr d hd).2.1) x hx
    exact ⟨h1.1, h2, h1.2⟩

theorem mergeRanges_chain_le (l : List Range) :
    List.Chain' gapLE (mergeRanges l) :=
  (mergeRanges_chain l).imp (by
    intro a b hab
    have h := hab.2
    unfold gapGT at h
    unfold gapLE
    have := eps_pos
    linarith)

theorem subtractPieces_valid01 (r0 r1 : ℚ) (c : Range)
    (h : 0 ≤ c.1 ∧ c.1 ≤ c.2 ∧ c.2 ≤ 1) :
    ∀ x ∈ subtractPieces r0 r1 c, 0 ≤ x.1 ∧ x.1 ≤ x.2 ∧ x.2 ≤ 1 := by
  intro x hx
  unfold subtractPieces at hx
  by_cases hov : c.2 < r0 ∨ c.1 > r1
  · simp only [hov, if_true, List.mem_singleton] at hx
    rw [hx]; exact h
  · simp only [hov, if_false] at hx
    push_neg at hov
    rcases List.mem_append.mp hx with h1 | h2
    · by_cases hc1 : c.1 < r0
      · simp only [hc1, if_true, List.mem_singleton] at h1
        rw [h1]
        exact ⟨h.1, le_of_lt hc1, le_trans hov.1 h.2.2⟩
      · simp only [hc1, if_false, List.not_mem_nil] at h1
    · by_cases hc2 : c.2 > r1
      · simp only [hc2, if_true, List.mem_singleton] at h2
        rw [h2]
        exact ⟨le_trans h.1 hov.2, le_of_lt hc2, h.2.2⟩
      · simp only [hc2, if_false, List.not_mem_nil] at h2

theorem subtractRange_valid01 (l : List Range) (r0 r1 : ℚ)
    (hv : ∀ c ∈ l, 0 ≤ c.1 ∧ c.1 ≤ c.2 ∧ c.2 ≤ 1) :
    ∀ x ∈ subtractRange l r0 r1, 0 ≤ x.1 ∧ x.1 ≤ x.2 ∧ x.2 ≤ 1 := by
  intro x hx
  rw [subtractRange_eq_spec] at hx
  obtain ⟨c, hc, hxc⟩ := List.mem_flatMap.mp hx
  exact subtractPieces_valid01 r0 r1 c (hv c hc) x hxc

theorem chainLE_all (t : List Range) :
    ∀ a : Range, (∀ y ∈ t.head?, gapLE a y) → List.Chain' gapLE t →
      (∀ c ∈ t, c.1 ≤ c.2) → ∀ b ∈ t, gapLE a b := by
  induction t with
  | nil => intro a _ _ _ b hb; simp at hb
  | cons b t' ih =>
    intro a hhd htl hpos x hx
    have hab : gapLE a b := hhd b (by simp)
    rcases List.mem_cons.mp hx with h | h
    · rw [h]; exact hab
    · rcases List.chain'_cons'.mp htl with ⟨hhd', htl'⟩
      refine ih a ?_ htl'
        (fun c hc => hpos c (List.mem_cons_of_mem b hc)) x h
      intro y hy
      have hby : gapLE b y := hhd' y hy
      have hbpos : b.1 ≤ b.2 := hpos b (List.mem_cons_self b t')
      unfold gapLE at *
      linarith

theorem chainLE_pairwise (l : List Range) (hc : List.Chain' gapLE l)
    (hpos : ∀ c ∈ l, c.1 ≤ c.2) : List.Pairwise gapLE l := by
  induction l with
  | nil => simp
  | cons a t ih =>
    rcases List.chain'_cons'.mp hc with ⟨hhd, htl⟩
    refine List.pairwise_cons.mpr ⟨?_, ih htl
      (fun c hcm => hpos c (List.mem_cons_of_mem a hcm))⟩
    exact chainLE_all t a hhd htl
      (fun c hcm => hpos c (List.mem_cons_of_mem a hcm))

theorem subtractPieces_pairwise_le (r0 r1 : ℚ) (hr : r0 ≤ r1)
    (c : Range) : List.Pairwise gapLE (subtractPieces r0 r1 c) := by
  unfold subtractPieces
  by_cases hov : c.2 < r0 ∨ c.1 > r1
  · simp [hov]
  · simp only [hov, if_false]
    by_cases h1 : c.1 < r0 <;> by_cases h2 : c.2 > r1 <;>
      simp [h1, h2, gapLE]
    linarith

theorem subtractRange_pairwise_le (l : List Range) (r0 r1 : ℚ)
    (hr : r0 ≤ r1) (hp : List.Pairwise gapLE l) :
    List.Pairwise gapLE (subtractRange l r0 r1) := by
  rw [subtractRange_eq_spec]
  apply List.pairwise_flatMap.mpr
  refine ⟨fun a _ => subtractPieces_pairwise_le r0 r1 hr a, ?_⟩
  refine hp.imp ?_
  intro a b hab x hx y hy
  have hxa := subtractPieces_within r0 r1 a x hx
  have hyb := subtractPieces_within r0 r1 b y hy
  unfold gapLE at *
  linarith [hxa.2, hyb.1]

/-- C2 (amended): painting always restores the canonical invariant (gaps
greater than `eps`, positive entry lengths).  Erasing any range
`[r0', r1']` with `r0' ≤ r1'` — including the narrow brush of a feature
with `meters > 2000` — always preserves entry positivity and pairwise
disjointness (each entry ends no later than the next begins), and
restores the full canonical invariant whenever the erased range is wider
than `eps`.  The original claim's stipulation that the full invariant
also holds for features with `meters > 2000` is refuted by
`erase_canonical_cex`: there the brush width `2 / meters` is at most
`eps`, the erase path performs no re-merge, and the two pieces of a
split are separated by less than `eps`. -/
theorem rangeUpdates_preserve_canonical (ranges : List Range)
    (total f r0 r1 : ℚ) (hcan : Canonical ranges)
    (htot : 0 < total) (hf0 : 0 ≤ f) (hf1 : f ≤ 1)
    (hw : eps < r1 - r0) :
    Canonical (processPointPaint ranges total f) ∧
    Canonical (subtractRange ranges r0 r1) ∧
    (∀ r0' r1' : ℚ, r0' ≤ r1' →
      (∀ x ∈ subtractRange ranges r0' r1', x.1 < x.2) ∧
      List.Pairwise gapLE (subtractRange ranges r0' r1')) := by
  refine ⟨?_, erase_preserves_canonical ranges r0 r1 hcan hw, ?_⟩
  · unfold processPointPaint
    apply mergeRanges_canonical
    intro c hc
    rcases List.mem_append.mp hc with h | h
    · exact hcan.2 c h
    · rw [List.mem_singleton] at h
      subst h
      rw [clampProg_eq f hf0 hf1]
      exact paintAppendRange_pos total f htot hf0 hf1
  · intro r0' r1' hr'
    refine ⟨subtractRange_pos ranges r0' r1' hcan.2, ?_⟩
    refine subtractRange_pairwise_le ranges r0' r1' hr' ?_
    refine (chain_gap_pairwise ranges hcan.1 hcan.2).imp ?_
    intro a b hab
    unfold gapGT at hab
    unfold gapLE
    have := eps_pos
    linarith

/-- Witness for C2 (amended) at `ranges = [[0, 1/4], [1/2, 1]]`,
`meters = 100`, paint fraction `1/2`, erased range `[2/5, 9/20]`. -/
theorem rangeUpdates_preserve_canonical_witness :
    (Canonical [((0:ℚ), (1:ℚ)/4), (1/2, 1)] ∧ (0:ℚ) < 100 ∧
     (0:ℚ) ≤ 1/2 ∧ (1:ℚ)/2 ≤ 1 ∧ eps < (9:ℚ)/20 - 2/5) ∧
    (Canonical (processPointPaint [((0:ℚ), (1:ℚ)/4), (1/2, 1)] 100 (1/2)) ∧
     Canonical (subtractRange [((0:ℚ), (1:ℚ)/4), (1/2, 1)] (2/5) (9/20)) ∧
     (∀ r0' r1' : ℚ, r0' ≤ r1' →
       (∀ x ∈ subtractRange [((0:ℚ), (1:ℚ)/4), (1/2, 1)] r0' r1',
         x.1 < x.2) ∧
       List.Pairwise gapLE
         (subtractRange [((0:ℚ), (1:ℚ)/4), (1/2, 1)] r0' r1'))) := by
  have hcan : Canonical [((0:ℚ), (1:ℚ)/4), (1/2, 1)] := by
    constructor
    · simp only [List.chain'_cons, List.chain'_singleton, and_true, gapGT, eps]
      norm_num
    · norm_num
  refine ⟨⟨hcan, by norm_num, by norm_num, by norm_num, ?_⟩, ?_⟩
  · norm_num [eps]
  · exact rangeUpdates_preserve_canonical _ 100 (1/2) (2/5) (9/20) hcan
      (by norm_num) (by norm_num) (by norm_num) (by norm_num [eps])

theorem boxDeselect_invariant (news : List Range) :
    ∀ current : List Range,
      (∀ c ∈ current, 0 ≤ c.1 ∧ c.1 ≤ c.2 ∧ c.2 ≤ 1) →
      List.Pairwise gapLE current →
      (∀ n ∈ news, 0 ≤ n.1 ∧ n.1 ≤ n.2 ∧ n.2 ≤ 1) →
      (∀ c ∈ boxDeselectRanges current news,
        0 ≤ c.1 ∧ c.1 ≤ c.2 ∧ c.2 ≤ 1) ∧
      List.Pairwise gapLE (boxDeselectRanges current news) := by
  induction news with
  | nil => intro current hv hp _; exact ⟨hv, hp⟩
  | cons n rest ih =>
    intro current hv hp hnews
    have hn := hnews n (List.mem_cons_self n rest)
    have hv' := subtractRange_valid01 current n.1 n.2 hv
    have hp' := subtractRange_pairwise_le current n.1 n.2 hn.2.1 hp
    have := ih (subtractRange current n.1 n.2) hv' hp'
      (fun m hm => hnews m (List.mem_cons_of_mem n hm))
    unfold boxDeselectRanges at *
    simpa using this

theorem map_pair_eta (l : List Range) :
    l.map (fun r : Range => (r.1, r.2)) = l := by
  simp

/-- C5: on every ranges update, `setProgressForLine` attaches the clamped
summed coverage (hence a value in `[0, 1]`) and the status that is the
pure threshold function of that coverage; the box-selection path attaches
an unclamped sum which, for valid feature state and clip ranges, equals
its own clamp and lies in `[0, 1]`, with the same status function. -/
theorem coverage_status_attached
    (ranges current news : List Range)
    (hcur : ∀ c ∈ current, 0 ≤ c.1 ∧ c.1 ≤ c.2 ∧ c.2 ≤ 1)
    (hpcur : List.Pairwise gapLE current)
    (hnews : ∀ n ∈ news, 0 ≤ n.1 ∧ n.1 ≤ n.2 ∧ n.2 ≤ 1) :
    (setProgressForLine ranges =
       (ranges, clamp01 (coverageRaw ranges),
        statusOf (clamp01 (coverageRaw ranges))) ∧
     0 ≤ clamp01 (coverageRaw ranges) ∧ clamp01 (coverageRaw ranges) ≤ 1 ∧
     statusMatches (clamp01 (coverageRaw ranges))) ∧
    (boxAttach (boxSelectRanges current news) =
       (clamp01 (coverageRaw (boxSelectRanges current news)),
        statusOf (clamp01 (coverageRaw (boxSelectRanges current news)))) ∧
     0 ≤ coverageRaw (boxSelectRanges current news) ∧
     coverageRaw (boxSelectRanges current news) ≤ 1 ∧
     statusMatches (coverageRaw (boxSelectRanges current news))) ∧
    (boxAttach (boxDeselectRanges current news) =
       (clamp01 (coverageRaw (boxDeselectRanges current news)),
        statusOf (clamp01 (coverageRaw (boxDeselectRanges current news)))) ∧
     0 ≤ coverageRaw (boxDeselectRanges current news) ∧
     coverageRaw (boxDeselectRanges current news) ≤ 1 ∧
     statusMatches (coverageRaw (boxDeselectRanges current news))) := by
  have hvv : ∀ c ∈ current ++ news, 0 ≤ c.1 ∧ c.1 ≤ c.2 ∧ c.2 ≤ 1 := by
    intro c hc
    rcases List.mem_append.mp hc with h | h
    · exact hcur c h
    · exact hnews c h
  have hselv := mergeRanges_valid01 (current ++ news) hvv
  have hselc : List.Chain' gapLE (boxSelectRanges current news) :=
    mergeRanges_chain_le (current ++ news)
  have hsel0 : 0 ≤ coverageRaw (boxSelectRanges current news) :=
    coverageRaw_nonneg _ (fun c hc => (hselv c hc).2.1)
  have hsel1 : coverageRaw (boxSelectRanges current news) ≤ 1 :=
    coverage_le_one _ hselc hselv
  obtain ⟨hdesv, hdesp⟩ := boxDeselect_invariant news current hcur hpcur hnews
  have hdes0 : 0 ≤ coverageRaw (boxDeselectRanges current news) :=
    coverageRaw_nonneg _ (fun c hc => (hdesv c hc).2.1)
  have hdes1 : coverageRaw (boxDeselectRanges current news) ≤ 1 :=
    coverage_le_one _ (hdesp.chain')
      hdesv
  refine ⟨⟨?_, clamp01_nonneg _, clamp01_le_one _,
      statusOf_char _ (clamp01_nonneg _)⟩,
    ⟨?_, hsel0, hsel1, statusOf_char _ hsel0⟩,
    ⟨?_, hdes0, hdes1, statusOf_char _ hdes0⟩⟩
  · unfold setProgressForLine
    rw [map_pair_eta]
  · unfold boxAttach
    rw [clamp01_eq _ hsel0 hsel1]
  · unfold boxAttach
    rw [clamp01_eq _ hdes0 hdes1]

/-- Witness for C5 at `ranges = [[0, 1/2]]`,
`current = [[0, 1/4], [1/2, 3/4]]`, `news = [[1/5, 3/5]]`. -/
theorem coverage_status_attached_witness :
    ((∀ c ∈ [((0:ℚ), (1:ℚ)/4), (1/2, 3/4)],
        0 ≤ c.1 ∧ c.1 ≤ c.2 ∧ c.2 ≤ 1) ∧
     List.Pairwise gapLE [((0:ℚ), (1:ℚ)/4), (1/2, 3/4)] ∧
     (∀ n ∈ [((1:ℚ)/5, (3:ℚ)/5)], 0 ≤ n.1 ∧ n.1 ≤ n.2 ∧ n.2 ≤ 1)) ∧
    (setProgressForLine [((0:ℚ), (1:ℚ)/2)] =
       ([((0:ℚ), (1:ℚ)/2)], clamp01 (coverageRaw [((0:ℚ), (1:ℚ)/2)]),
        statusOf (clamp01 (coverageRaw [((0:ℚ), (1:ℚ)/2)]))) ∧
     0 ≤ coverageRaw (boxSelectRanges [((0:ℚ), (1:ℚ)/4), (1/2, 3/4)]
        [((1:ℚ)/5, (3:ℚ)/5)]) ∧
     coverageRaw (boxSelectRanges [((0:ℚ), (1:ℚ)/4), (1/2, 3/4)]
        [((1:ℚ)/5, (3:ℚ)/5)]) ≤ 1 ∧
     coverageRaw (boxDeselectRanges [((0:ℚ), (1:ℚ)/4), (1/2, 3/4)]
        [((1:ℚ)/5, (3:ℚ)/5)]) ≤ 1) := by
  have hpair : List.Pairwise gapLE [((0:ℚ), (1:ℚ)/4), (1/2, 3/4)] := by
    refine List.pairwise_cons.mpr ⟨?_, by simp⟩
    intro b hb
    rw [List.mem_singleton] at hb
    rw [hb]
    unfold gapLE
    norm_num
  have h := coverage_status_attached [((0:ℚ), (1:ℚ)/2)]
    [((0:ℚ), (1:ℚ)/4), (1/2, 3/4)] [((1:ℚ)/5, (3:ℚ)/5)]
    (by norm_num) hpair (by norm_num)
  exact ⟨⟨by norm_num, hpair, by norm_num⟩,
    h.1.1, h.2.1.2.1, h.2.1.2.2.1, h.2.2.2.2.1⟩

theorem pushUndoSnapshot_small (stack : List FeatureSet)
    (state : FeatureSet) (h : state ≠ []) (hlen : stack.length + 1 ≤ 50) :
    pushUndoSnapshot stack state = stack ++ [state] := by
  unfold pushUndoSnapshot cloneData
  rw [if_neg (by simpa [List.isEmpty_iff] using h)]
  have : ¬ (stack ++ [state]).length > MAX_UNDO := by
    rw [List.length_append, List.length_singleton]
    unfold MAX_UNDO
    omega
  rw [if_neg this]

theorem foldl_push_small (states : List FeatureSet) :
    ∀ stack : List FeatureSet, (∀ s ∈ states, s ≠ []) →
      stack.length + states.length ≤ 50 →
      List.foldl pushUndoSnapshot stack states = stack ++ states := by
  induction states with
  | nil => intro stack _ _; simp
  | cons s rest ih =>
    intro stack hne hlen
    rw [List.foldl_cons,
      pushUndoSnapshot_small stack s (hne s (List.mem_cons_self s rest))
        (by rw [List.length_cons] at hlen; omega)]
    rw [ih (stack ++ [s]) (fun t ht => hne t (List.mem_cons_of_mem s ht))
      (by rw [List.length_append, List.length_singleton];
          rw [List.length_cons] at hlen; omega)]
    simp

theorem pushUndoSnapshot_getLast (stack : List FeatureSet)
    (state : FeatureSet) (h : state ≠ []) :
    (pushUndoSnapshot stack state).getLast? = some state := by
  unfold pushUndoSnapshot cloneData
  rw [if_neg (by simpa [List.isEmpty_iff] using h)]
  by_cases hlen : (stack ++ [state]).length > MAX_UNDO
  · rw [if_pos hlen]
    cases stack with
    | nil =>
      rw [List.length_append, List.length_singleton] at hlen
      unfold MAX_UNDO at hlen
      simp at hlen
    | cons s0 rest =>
      rw [List.cons_append, List.tail_cons]
      exact List.getLast?_concat _
  · rw [if_neg hlen]
    exact List.getLast?_concat _

/-- C7: the undo stack is bounded at 50 with oldest-first eviction
(51 pushes leave exactly the last 50), undo after a push restores exactly
the snapshot captured by that push, and undo on an empty stack changes
neither the stack nor the live feature set. -/
theorem undo_stack_spec (states : List FeatureSet)
    (stack : List FeatureSet) (fs x : FeatureSet)
    (h51 : states.length = 51) (hne : ∀ s ∈ states, s ≠ [])
    (hx : x ≠ []) :
    (List.foldl pushUndoSnapshot [] states = states.tail ∧
     (List.foldl pushUndoSnapshot [] states).length = 50) ∧
    undoLast (pushUndoSnapshot stack x) fs =
      ((pushUndoSnapshot stack x).dropLast, x) ∧
    undoLast [] fs = ([], fs) := by
  have hnil : states ≠ [] := by
    intro h
    rw [h] at h51
    simp at h51
  have hdec : states.dropLast ++ [states.getLast hnil] = states :=
    List.dropLast_append_getLast hnil
  have hyslen : states.dropLast.length = 50 := by
    rw [List.length_dropLast, h51]
  have hfold : List.foldl pushUndoSnapshot [] states = states.tail := by
    conv_lhs => rw [← hdec]
    rw [List.foldl_append]
    rw [foldl_push_small states.dropLast []
      (fun s hs => hne s (List.dropLast_subset states hs))
      (by rw [hyslen]; simp)]
    rw [List.nil_append, List.foldl_cons, List.foldl_nil]
    unfold pushUndoSnapshot cloneData
    rw [if_neg (by
      simpa [List.isEmpty_iff] using hne _ (List.getLast_mem hnil))]
    rw [if_pos (by
      rw [List.length_append, List.length_singleton, hyslen]
      unfold MAX_UNDO
      omega)]
    rw [hdec]
  refine ⟨⟨hfold, ?_⟩, ?_, rfl⟩
  · rw [hfold, List.length_tail, h51]
  · unfold undoLast
    rw [pushUndoSnapshot_getLast stack x hx]

/-- Witness for C7: 51 pushes of singleton feature sets onto an empty
stack, one further push/undo pair, and an undo on the empty stack. -/
theorem undo_stack_spec_witness :
    ((List.replicate 51 [(⟨0, 0, 1, [], Status.pending⟩ : Feature)]).length
        = 51 ∧
     (∀ s ∈ List.replicate 51 [(⟨0, 0, 1, [], Status.pending⟩ : Feature)],
        s ≠ []) ∧
     ([(⟨0, 0, 1, [], Status.pending⟩ : Feature)] : FeatureSet) ≠ []) ∧
    ((List.foldl pushUndoSnapshot []
        (List.replicate 51 [(⟨0, 0, 1, [], Status.pending⟩ : Feature)]) =
      (List.replicate 51
        [(⟨0, 0, 1, [], Status.pending⟩ : Feature)]).tail ∧
      (List.foldl pushUndoSnapshot []
        (List.replicate 51
          [(⟨0, 0, 1, [], Status.pending⟩ : Feature)])).length = 50) ∧
     undoLast (pushUndoSnapshot []
        [(⟨0, 0, 1, [], Status.pending⟩ : Feature)]) [] =
      ((pushUndoSnapshot []
          [(⟨0, 0, 1, [], Status.pending⟩ : Feature)]).dropLast,
        [(⟨0, 0, 1, [], Status.pending⟩ : Feature)]) ∧
     undoLast [] [] = ([], ([] : FeatureSet))) := by
  refine ⟨⟨by simp, ?_, by simp⟩, ?_⟩
  · intro s hs
    rw [List.eq_of_mem_replicate hs]
    simp
  · exact undo_stack_spec _ [] [] _ (by simp)
      (fun s hs => by rw [List.eq_of_mem_replicate hs]; simp) (by simp)

/-- C8: with a null or empty feature list and no spatial-index hits the
nearest-feature resolver returns no feature and distance `Infinity`
(modelled by `⊤`), in every combination of null/empty inputs. -/
theorem pickNearestFeature_empty (p : Pt) :
    pickNearestFeature p none none = (none, ⊤) ∧
    pickNearestFeature p (some []) none = (none, ⊤) ∧
    pickNearestFeature p none (some []) = (none, ⊤) ∧
    pickNearestFeature p (some []) (some []) = (none, ⊤) :=
  ⟨rfl, rfl, rfl, rfl⟩

theorem distRun_min_acc (d : ℚ) (minD : WithTop ℚ) :
    (if (d : WithTop ℚ) < minD then (d : WithTop ℚ) else minD) =
      min minD (d : WithTop ℚ) := by
  by_cases h : (d : WithTop ℚ) < minD
  · rw [if_pos h, min_eq_right (le_of_lt h)]
  · rw [if_neg h, min_eq_left (not_lt.mp h)]

theorem distRun_le_or_min (dists : List ℚ) :
    ∀ minD : WithTop ℚ,
      distRun dists minD ≤ ((TOLSQ : ℚ) : WithTop ℚ) ∨
      distRun dists minD =
        dists.foldl (fun m d => min m ((d : ℚ) : WithTop ℚ)) minD := by
  induction dists with
  | nil => intro minD; right; rfl
  | cons d rest ih =>
    intro minD
    rw [distRun, List.foldl_cons]
    by_cases h : d ≤ TOLSQ
    · left
      simp only [h, if_true]
      exact WithTop.coe_le_coe.mpr h
    · simp only [h, if_false]
      rw [distRun_min_acc]
      exact ih (min minD (d : WithTop ℚ))

theorem distRun_no_exit (dists : List ℚ) :
    ∀ minD : WithTop ℚ, (∀ d ∈ dists, TOLSQ < d) →
      distRun dists minD =
        dists.foldl (fun m d => min m ((d : ℚ) : WithTop ℚ)) minD := by
  induction dists with
  | nil => intro minD _; rfl
  | cons d rest ih =>
    intro minD hall
    rw [distRun, List.foldl_cons]
    have h : ¬ d ≤ TOLSQ :=
      not_le.mpr (hall d (List.mem_cons_self d rest))
    simp only [h, if_false]
    rw [distRun_min_acc]
    exact ih (min minD (d : WithTop ℚ))
      (fun e he => hall e (List.mem_cons_of_mem d he))

/-- C9: the short-circuiting point-to-feature distance either returns a
value at or below the (squared) pixel tolerance, or returns exactly the
naive minimum over all segments; in particular when every segment distance
exceeds the tolerance it returns the true minimum. -/
theorem pixelDistance_shortcircuit (p : Pt) (g : Geom) :
    (pixelDistancePointToFeature p g ≤ ((TOLSQ : ℚ) : WithTop ℚ) ∨
     pixelDistancePointToFeature p g = naiveMinDist p g) ∧
    ((∀ d ∈ segDists p g, TOLSQ < d) →
      pixelDistancePointToFeature p g = naiveMinDist p g) :=
  ⟨distRun_le_or_min (segDists p g) ⊤,
   fun h => distRun_no_exit (segDists p g) ⊤ h⟩

/-- Witness for C9 at the point `(0, 0)` and the single-segment feature
from `(3, 4)` to `(3, -4)`, whose squared distance `9` is below the
squared tolerance, plus a far feature at `x = 100` with all distances
above tolerance. -/
theorem pixelDistance_shortcircuit_witness :
    (∀ d ∈ segDists ⟨0, 0⟩
        (Geom.lineString [⟨100, 0⟩, ⟨100, 100⟩]), TOLSQ < d) ∧
    pixelDistancePointToFeature ⟨0, 0⟩
        (Geom.lineString [⟨100, 0⟩, ⟨100, 100⟩]) =
      naiveMinDist ⟨0, 0⟩ (Geom.lineString [⟨100, 0⟩, ⟨100, 100⟩]) := by
  have hfar : ∀ d ∈ segDists ⟨0, 0⟩
      (Geom.lineString [⟨100, 0⟩, ⟨100, 100⟩]), TOLSQ < d := by
    norm_num [segDists, segDistsLine, distSqPointToSegment, TOLSQ]
  exact ⟨hfar,
    (pixelDistance_shortcircuit ⟨0, 0⟩
      (Geom.lineString [⟨100, 0⟩, ⟨100, 100⟩])).2 hfar⟩

theorem goEff_fst (rest : List (ℕ × Range)) :
    ∀ (i : ℕ) (cur : Range) (vals : List Range),
      (goEff (i, cur) rest vals).1 = mergeGo cur (rest.map Prod.snd) := by
  induction rest with
  | nil => intro i cur vals; rfl
  | cons jn rest ih =>
    intro i cur vals
    obtain ⟨j, nxt⟩ := jn
    rw [List.map_cons, goEff, mergeGo]
    by_cases hm : nxt.1 ≤ cur.2 + eps
    · simp only [hm, if_true]
      exact ih i (cur.1, max cur.2 nxt.2) (vals.set i (cur.1, max cur.2 nxt.2))
    · simp only [hm, if_false]
      rw [← ih j nxt vals]

theorem jsMergeRanges_fst (v : List Range) :
    (jsMergeRanges v).1 = mergeRanges v := by
  have hmap :
      (((List.range v.length).zip v).insertionSort leStartIdx).map Prod.snd =
        v.insertionSort startLE := by
    rw [List.map_insertionSort leStartIdx startLE Prod.snd
      ((List.range v.length).zip v) (fun a _ b _ => Iff.rfl)]
    rw [List.map_snd_zip _ _ (by rw [List.length_range])]
  unfold jsMergeRanges mergeRanges sortRanges
  rcases h : ((List.range v.length).zip v).insertionSort leStartIdx with
    _ | ⟨c, rest⟩
  · rw [h] at hmap
    rw [← hmap]
    rfl
  · rw [h] at hmap
    rw [List.map_cons] at hmap
    rw [← hmap]
    exact goEff_fst rest c.1 c.2 v

/-- C10: the engine is not mutation-free.  `mergeRanges` returns the same
list of values as its pure specification, but on the input
`[[0, 1/2], [2/5, 3/5]]` it writes `0.6` into the first entry of the
caller's array through the aliased cell (`current[1] = Math.max(...)`
behind the shallow copy `[...ranges]`), so the caller's entries afterwards
are `[[0, 3/5], [2/5, 3/5]]`, not the original input. -/
theorem jsMergeRanges_mutates :
    (jsMergeRanges [((0:ℚ), 1/2), (2/5, 3/5)]).1 =
      mergeRanges [((0:ℚ), 1/2), (2/5, 3/5)] ∧
    (jsMergeRanges [((0:ℚ), 1/2), (2/5, 3/5)]).1 = [(0, 3/5)] ∧
    (jsMergeRanges [((0:ℚ), 1/2), (2/5, 3/5)]).2 =
      [(0, 3/5), (2/5, 3/5)] ∧
    (jsMergeRanges [((0:ℚ), 1/2), (2/5, 3/5)]).2 ≠
      [((0:ℚ), 1/2), (2/5, 3/5)] := by
  refine ⟨jsMergeRanges_fst _, ?_, ?_, ?_⟩ <;>
    norm_num [jsMergeRanges, goEff, leStartIdx, List.insertionSort,
      List.orderedInsert, eps, List.range_succ, List.set]

end Trench
